import Mathlib

/-!
Verification development for the schemafy code generator (src/src/lib.rs).

The Rust core is shallowly embedded here:
* `Schema` mirrors the draft-4 meta-schema struct used by the generator
  (the fields `lib.rs` reads: `ref_`, `type_`, `properties`, `required`,
  `items`, `additionalProperties`, `enum_`, `anyOf`, `allOf`,
  `description`, `default`, `definitions`).  `BTreeMap`s are modelled as
  key-sorted association lists, which reproduces their iteration order.
* JSON literals that the generator inspects (`enum` members and
  `default`) are modelled by `JValue`.
* Functions that can `panic!` in Rust (`type_ref`, `schema_ref`,
  `syn::Ident::new`, enum-variant processing) return `Except String _`.
* The recursive expander is fuel-indexed: every mutual call steps the
  fuel down, so all definitions are structural and executable.  Running
  out of fuel yields a distinguished error that no theorem here treats
  as program behaviour.
* The token-stream rendering layer (`quote!`, `make_doc_comment`,
  `TokenStream::parse`) is the emitter boundary; declarations are
  modelled structurally by `TypeDecl` instead of as token streams, and
  the casing utilities from the external `inflector` crate
  (`to_pascal_case`, `to_snake_case`) are modelled by `pascalOf` /
  `snakeOf` (word split at non-alphanumerics and lower→upper camel
  boundaries, as Inflector does on the identifier shapes that occur
  here).
-/

namespace Schemafy

/-- The draft-4 `simpleTypes` enumeration (`schema::SimpleTypes`). -/
inductive SimpleTypes where
  | array
  | boolean
  | integer
  | null
  | number
  | object
  | string
deriving DecidableEq, Repr

/-- JSON literal values as far as the generator inspects them:
`enum` members (`Value::String` / `Value::Null` / anything else) and the
`default` literal (compared against the empty object). -/
inductive JValue where
  | null
  | bool (b : Bool)
  | str (s : String)
  | num (n : Int)
  | arrayV
  | objEmpty
  | objNonEmpty
deriving DecidableEq, Repr

/-- Rendering used by the `panic!("Expected string for enum got `{}`")`
message (`serde_json::Value`'s `Display`, abbreviated for non-scalars). -/
def renderJValue : JValue → String
  | .null => "null"
  | .bool true => "true"
  | .bool false => "false"
  | .str s => "\"" ++ s ++ "\""
  | .num n => toString n
  | .arrayV => "[...]"
  | .objEmpty => "\x7b\x7d"
  | .objNonEmpty => "\x7b...\x7d"

/-- A schema node (`schema::Schema`), restricted to the fields `lib.rs`
reads.  `additionalProperties` is `Option (Sum Bool Schema)`: absent, a
boolean, or a nested schema object (the only shapes the generator
distinguishes).  Association lists stand for `BTreeMap`s and are kept
key-sorted. -/
inductive Schema where
  | mk
    (ref_ : Option String)
    (type_ : List SimpleTypes)
    (properties : List (String × Schema))
    (required : Option (List String))
    (items : List Schema)
    (additionalProperties : Option (Sum Bool Schema))
    (enum_ : Option (List JValue))
    (anyOf : Option (List Schema))
    (allOf : Option (List Schema))
    (description : Option String)
    (default : Option JValue)
    (definitions : List (String × Schema))

def Schema.ref_ : Schema → Option String
  | .mk r _ _ _ _ _ _ _ _ _ _ _ => r

def Schema.type_ : Schema → List SimpleTypes
  | .mk _ t _ _ _ _ _ _ _ _ _ _ => t

def Schema.properties : Schema → List (String × Schema)
  | .mk _ _ p _ _ _ _ _ _ _ _ _ => p

def Schema.required : Schema → Option (List String)
  | .mk _ _ _ rq _ _ _ _ _ _ _ _ => rq

def Schema.items : Schema → List Schema
  | .mk _ _ _ _ it _ _ _ _ _ _ _ => it

def Schema.additionalProperties : Schema → Option (Sum Bool Schema)
  | .mk _ _ _ _ _ ap _ _ _ _ _ _ => ap

def Schema.enum_ : Schema → Option (List JValue)
  | .mk _ _ _ _ _ _ en _ _ _ _ _ => en

def Schema.anyOf : Schema → Option (List Schema)
  | .mk _ _ _ _ _ _ _ ao _ _ _ _ => ao

def Schema.allOf : Schema → Option (List Schema)
  | .mk _ _ _ _ _ _ _ _ al _ _ _ => al

def Schema.description : Schema → Option String
  | .mk _ _ _ _ _ _ _ _ _ d _ _ => d

def Schema.default : Schema → Option JValue
  | .mk _ _ _ _ _ _ _ _ _ _ df _ => df

def Schema.definitions : Schema → List (String × Schema)
  | .mk _ _ _ _ _ _ _ _ _ _ _ ds => ds

/-- The all-absent schema node (every `serde` default). -/
def Schema.empty : Schema :=
  .mk none [] [] none [] none none none none none none []

/-- Replace the `type` tag list (used for the `ty.type_.retain(..)` clone
in the two-tag-with-null branch of `expand_type_`). -/
def Schema.withType_ (s : Schema) (t : List SimpleTypes) : Schema :=
  match s with
  | .mk r _ p rq it ap en ao al d df ds => .mk r t p rq it ap en ao al d df ds

/-! ## Structural equality on schema nodes

`schema::Schema` derives `PartialEq`; `expand_type_` compares normalized
nodes with `==` in the two-member-`anyOf` heuristic.  The derived
equality is structural, which `Schema.beq` reproduces. -/

mutual

def Schema.beq : Schema → Schema → Bool
  | .mk r1 t1 p1 rq1 it1 ap1 en1 ao1 al1 d1 df1 ds1,
    .mk r2 t2 p2 rq2 it2 ap2 en2 ao2 al2 d2 df2 ds2 =>
    r1 == r2 && t1 == t2 && Schema.beqProps p1 p2 && rq1 == rq2 &&
      Schema.beqList it1 it2 && Schema.beqAP ap1 ap2 && en1 == en2 &&
      Schema.beqOptList ao1 ao2 && Schema.beqOptList al1 al2 &&
      d1 == d2 && df1 == df2 && Schema.beqProps ds1 ds2
termination_by structural s => s

def Schema.beqProps : List (String × Schema) → List (String × Schema) → Bool
  | [], [] => true
  | (k1, v1) :: r1, (k2, v2) :: r2 =>
    k1 == k2 && Schema.beq v1 v2 && Schema.beqProps r1 r2
  | _, _ => false
termination_by structural l => l

def Schema.beqList : List Schema → List Schema → Bool
  | [], [] => true
  | s1 :: r1, s2 :: r2 => Schema.beq s1 s2 && Schema.beqList r1 r2
  | _, _ => false
termination_by structural l => l

def Schema.beqOptList : Option (List Schema) → Option (List Schema) → Bool
  | none, none => true
  | some l1, some l2 => Schema.beqList l1 l2
  | _, _ => false
termination_by structural o => o

def Schema.beqAP : Option (Sum Bool Schema) → Option (Sum Bool Schema) → Bool
  | none, none => true
  | some (.inl b1), some (.inl b2) => b1 == b2
  | some (.inr s1), some (.inr s2) => Schema.beq s1 s2
  | _, _ => false
termination_by structural o => o

end

/-! ## Identifier sanitation (`replace_invalid_identifier_chars`,
`rename_keyword`, `field`)

The case conversions come from the external `inflector` crate; they are
modelled by splitting into words at non-alphanumeric characters and at a
lower-to-upper camel boundary, then recasing each word.
`syn::Ident::new` panics on a string that is not a legal identifier
(empty, or not of letter-or-underscore-then-alphanumeric shape); that
constructor is modelled by `identNew`. -/

/-- Does the reversed current word start (i.e. end, in reading order)
with a lower-case letter?  Used for the camel-boundary test. -/
def headIsLower : List Char → Bool
  | p :: _ => p.isLower
  | [] => false

/-- Word splitter shared by the `to_pascal_case` / `to_snake_case`
models.  `cur` is the current word, reversed. -/
def splitWordsAux : List Char → List Char → List (List Char)
  | [], cur => if cur.isEmpty then [] else [cur.reverse]
  | c :: rest, cur =>
    if ¬ c.isAlphanum then
      if cur.isEmpty then splitWordsAux rest [] else cur.reverse :: splitWordsAux rest []
    else if c.isUpper && headIsLower cur then
      cur.reverse :: splitWordsAux rest [c]
    else
      splitWordsAux rest (c :: cur)

def splitWords (s : String) : List (List Char) :=
  splitWordsAux s.data []

/-- One pascal-cased word: first character upper-cased, rest lower-cased. -/
def capWord : List Char → List Char
  | [] => []
  | c :: cs => c.toUpper :: cs.map Char.toLower

/-- Model of `inflector`'s `to_pascal_case`. -/
def pascalOf (s : String) : String :=
  String.mk ((splitWords s).map capWord).flatten

/-- Model of `inflector`'s `to_snake_case`. -/
def snakeOf (s : String) : String :=
  String.mk (List.intercalate ['_'] ((splitWords s).map (·.map Char.toLower)))

/-- `replace_invalid_identifier_chars`: every character that is neither
alphanumeric nor an underscore becomes an underscore. -/
def replace_invalid_identifier_chars (s : String) : String :=
  String.mk (s.data.map (fun c => if c.isAlphanum ∨ c = '_' then c else '_'))

/-- Legal-identifier shape enforced by `proc_macro2::Ident::new`:
non-empty, starting with a letter or underscore, continuing with
alphanumerics or underscores. -/
def validIdent (s : String) : Bool :=
  match s.data with
  | [] => false
  | c :: cs => (c.isAlpha || c == '_') && cs.all (fun x => x.isAlphanum || x == '_')

/-- `syn::Ident::new`, which panics on an illegal identifier. -/
def identNew (s : String) : Except String String :=
  if validIdent s then .ok s else .error ("`" ++ s ++ "` is not a valid Ident")

/-- Kernel-evaluable character membership (`str::contains(char)`). -/
def strContains (s : String) (c : Char) : Bool :=
  s.data.contains c

/-- Kernel-evaluable removal of one character (`str::replace(char, "")`). -/
def strRemoveChar (c : Char) (s : String) : String :=
  String.mk (s.data.filter (fun x => x ≠ c))

/-- Kernel-evaluable `str::starts_with`. -/
def strStartsWith (s pre : String) : Bool :=
  pre.data.isPrefixOf s.data

def splitSlashAux : List Char → List Char → List String
  | [], cur => [String.mk cur.reverse]
  | x :: rest, cur =>
    if x = '/' then String.mk cur.reverse :: splitSlashAux rest []
    else splitSlashAux rest (x :: cur)

/-- Kernel-evaluable `str::split('/')` (never empty; `""` splits to `[""]`). -/
def splitSlash (s : String) : List String :=
  splitSlashAux s.data []

/-- The reserved-word table of `rename_keyword`. -/
def rustKeywords : List String :=
  ["as", "break", "const", "continue", "crate", "else", "enum", "extern",
   "false", "fn", "for", "if", "impl", "in", "let", "loop", "match", "mod",
   "move", "mut", "pub", "ref", "return", "self", "static", "struct",
   "super", "trait", "true", "type", "unsafe", "use", "where", "while",
   "abstract", "become", "box", "do", "final", "macro", "override", "priv",
   "typeof", "unsized", "virtual", "yield", "async", "await", "try"]

/-- A produced field or variant token: the serde rename attributes that
were attached, and the identifier itself. -/
structure FieldTok where
  renames : List String
  ident : String
deriving DecidableEq, Repr

/-- `rename_keyword`: a reserved word gets a trailing-underscore
identifier plus a `#[serde(rename = ...)]` back to the original
spelling.  The `pfx` argument ("pub" or "") only affects rendering. -/
def rename_keyword (_pfx s : String) : Option FieldTok :=
  if rustKeywords.contains s then some ⟨[s], s ++ "_"⟩ else none

/-- `field`: produce the declaration token for one record field name. -/
def field (s : String) : Except String FieldTok :=
  match rename_keyword "pub" s with
  | some t => .ok t
  | none =>
    let snake := snakeOf s
    if snake ≠ s ∨ strContains snake '$' ∨ strContains snake '#' then
      if snake = "ref" then do
        let id ← identNew "ref_"
        .ok ⟨[s], id⟩
      else do
        let id ← identNew (strRemoveChar '#' (strRemoveChar '$' snake))
        .ok ⟨[s], id⟩
    else do
      let id ← identNew s
      .ok ⟨[], id⟩

/-! ## `allOf` composition (`merge_option`, `merge_all_of`)

`BTreeMap::entry` either merges into the value already present (keeping
its position) or inserts at the key's sorted position. -/

/-- `merge_option`: combine with `f` when both sides are present, copy
when only the right side is. -/
def merge_option {α : Type} (f : α → α → α) : Option α → Option α → Option α
  | some x, some y => some (f x y)
  | none, some y => some y
  | x, none => x

/-- Replace the value stored at `k` (the `Entry::Occupied` case). -/
def replaceProp (k : String) (v : Schema) : List (String × Schema) → List (String × Schema)
  | [] => []
  | (k', v') :: rest =>
    if k' = k then (k', v) :: rest else (k', v') :: replaceProp k v rest

/-- Insert at the sorted position (the `Entry::Vacant` case). -/
def insertProp (k : String) (v : Schema) : List (String × Schema) → List (String × Schema)
  | [] => [(k, v)]
  | (k', v') :: rest =>
    if k < k' then (k, v) :: (k', v') :: rest else (k', v') :: insertProp k v rest

mutual

/-- `merge_all_of`: deep-merge `r` into `result`.  Properties merge
map-wise (recursively on a shared key); `ref` and `description` are
last-write-wins; `required` is unioned via `merge_option`; the `type`
tag list of `result` retains exactly the tags that `r` also lists. -/
def merge_all_of : Schema → Schema → Schema
  | .mk ref_ type_ props req items ap en ao al descr df ds,
    .mk rref rtype rprops rreq _ _ _ _ _ rdescr _ _ =>
    .mk
      (match rref with | some r => some r | none => ref_)
      (type_.filter (fun t => rtype.contains t))
      (merge_all_of_props props rprops)
      (merge_option (fun a b => a ++ b) req rreq)
      items ap en ao al
      (match rdescr with | some d => some d | none => descr)
      df ds
termination_by structural _a b => b

def merge_all_of_props (result : List (String × Schema)) : List (String × Schema) → List (String × Schema)
  | [] => result
  | (k, v) :: rest =>
    merge_all_of_props
      (match result.lookup k with
       | some old => replaceProp k (merge_all_of old v) result
       | none => insertProp k v result)
      rest
termination_by structural l => l

end

/-! ## The expander -/

/-- `FieldType`: the textual type representation decided for one field,
plus its extra serde attributes and whether it is default-applicable. -/
structure FieldType where
  typ : String
  attributes : List String
  default : Bool
deriving DecidableEq, Repr

/-- The `impl<S: Into<String>> From<S> for FieldType` conversion. -/
def FieldType.ofTyp (s : String) : FieldType := ⟨s, [], false⟩

/-- Everything `expand_fields` emits for one record field (structural
form of the `quote!` output: name, serde renames, identifier, type text,
`#[serde(default)]` marker, extra attributes, doc text). -/
structure FieldInfo where
  key : String
  renames : List String
  ident : String
  typ : String
  default : Bool
  attributes : List String
  comment : Option String
deriving DecidableEq, Repr

/-- A finished declaration (structural form of the token stream built in
`expand_schema`): a record, a sum type, the `type X = Option<X_>` +
auxiliary enum pair produced for a null-containing enum, or an alias.
`rename` is the `#[serde(rename = ...)]` wrapper attached when the
pascal-cased name differs from the original (the alias arm returns
before that wrapper is attached). -/
inductive TypeDecl where
  | structDecl (name : String) (fields : List FieldInfo) (derivesDefault : Bool) (rename : Option String)
  | enumDecl (name : String) (variants : List FieldTok) (rename : Option String)
  | optionalEnum (name : String) (auxName : String) (variants : List FieldTok) (rename : Option String)
  | alias (name : String) (typ : String)
deriving DecidableEq, Repr

/-- The `Expander` state: configuration, the root document, the naming
context (`current_type`, `current_field`) and the append-only registry
of produced declarations. -/
structure Expander where
  rootName : Option String
  schemafyPath : String
  root : Schema
  currentType : String
  currentField : String
  types : List (String × TypeDecl)

/-- `Expander::new`. -/
def Expander.new (rootName : Option String) (schemafyPath : String) (root : Schema) : Expander :=
  ⟨rootName, schemafyPath, root, "", "", []⟩

/-- `Expander::type_ref`: `#` resolves to the configured root name
(panicking when there is none); any other reference contributes its last
slash-separated segment; the result is pascal-cased and sanitized. -/
def type_ref (e : Expander) (s : String) : Except String String :=
  if s = "#" then
    match e.rootName with
    | none => .error "No root name specified for schema"
    | some n => .ok (replace_invalid_identifier_chars (pascalOf n))
  else
    .ok (replace_invalid_identifier_chars (pascalOf ((splitSlash s).getLastD "")))

/-- `Expander::schema_ref`: fold over the slash-separated components;
`#` restarts at the root, `definitions` is a no-op, anything else is a
definitions lookup that panics when absent. -/
def schema_ref (e : Expander) (s : String) : Except String Schema :=
  (splitSlash s).foldlM
    (fun sch comp =>
      if comp = "#" then .ok e.root
      else if comp = "definitions" then .ok sch
      else
        match sch.definitions.lookup comp with
        | some d => .ok d
        | none => .error ("Expected definition: `" ++ s ++ "` " ++ comp))
    e.root

mutual

/-- `Expander::schema`, the normalizer: resolve a `ref` (one level),
then fold a non-empty `allOf` with `merge_all_of`, the recursively
normalized first element seeding the fold.  Fuel-indexed because a
schema can make this recursion diverge (`allOf` of a self-reference
overflows the stack in the Rust original). -/
def schema : Nat → Expander → Schema → Except String Schema
  | 0, _, _ => .error "recursion limit exceeded"
  | f+1, e, s => do
    let s' ← match s.ref_ with
             | some r => schema_ref e r
             | none => .ok s
    match s'.allOf with
    | some (a :: rest) => do
        let seed ← schema f e a
        normAllOfFold f e seed rest
    | _ => .ok s'

/-- The `all_of.iter().skip(1).fold(..)` of `Expander::schema`. -/
def normAllOfFold : Nat → Expander → Schema → List Schema → Except String Schema
  | 0, _, _, _ => .error "recursion limit exceeded"
  | _+1, _, acc, [] => .ok acc
  | f+1, e, acc, d :: rest => do
      let nd ← schema f e d
      normAllOfFold f e (merge_all_of acc nd) rest

end

/-- The `flat_map` over enum members in `expand_schema`: a string member
becomes a pascal-cased variant (keyword-renamed or checked by
`syn::Ident::new`, with a serde rename when the case conversion changed
the spelling), `null` sets the optional flag, and anything else
panics. -/
def expand_variants : List JValue → Except String (Bool × List FieldTok)
  | [] => .ok (false, [])
  | v :: rest =>
    match v with
    | .str s => do
        let pv := pascalOf s
        let tok ← match rename_keyword "" pv with
                  | some t => .ok t
                  | none => do
                      let id ← identNew pv
                      .ok (⟨[], id⟩ : FieldTok)
        let tok := if pv = s then tok else {tok with renames := s :: tok.renames}
        let (opt, toks) ← expand_variants rest
        .ok (opt, tok :: toks)
    | .null => do
        let (_, toks) ← expand_variants rest
        .ok (true, toks)
    | other => .error ("Expected string for enum got `" ++ renderJValue other ++ "`")

/-- `if name == original_name` rename wrapper of `expand_schema`. -/
def renameFor (pascalName originalName : String) : Option String :=
  if pascalName = originalName then none else some originalName

mutual

/-- `Expander::expand_type_`: the ordered decision table.  Direct `ref`;
two-member `anyOf` (the one-or-many idiom, else dynamic); two `type`
tags (null-union, else dynamic); one `type` tag (primitives, inline
object, map object, array, `null`→dynamic); anything else dynamic. -/
def expand_type_ : Nat → Expander → Schema → Except String (FieldType × Expander)
  | 0, _, _ => .error "recursion limit exceeded"
  | f+1, e, typ =>
    match typ.ref_ with
    | some r => do
        let n ← type_ref e r
        .ok (FieldType.ofTyp n, e)
    | none =>
      match typ.anyOf with
      | some [s1, s2] => do
          let simple ← schema f e s1
          let arr ← schema f e s2
          match arr.type_ with
          | t0 :: _ =>
            if t0 = SimpleTypes.array then
              match arr.items with
              | [] => .error "index out of bounds: the len is 0 but the index is 0"
              | it :: _ => do
                  let itn ← schema f e it
                  if Schema.beq simple itn then do
                    let (ft, e') ← expand_type_ f e s1
                    .ok (⟨"Vec<" ++ ft.typ ++ ">",
                          ["with=\"" ++ e.schemafyPath ++ "one_or_many\""], true⟩, e')
                  else .ok (FieldType.ofTyp "serde_json::Value", e)
            else .ok (FieldType.ofTyp "serde_json::Value", e)
          | [] => .ok (FieldType.ofTyp "serde_json::Value", e)
      | _ =>
        match typ.type_ with
        | [t1, t2] =>
          if t1 = SimpleTypes.null ∨ t2 = SimpleTypes.null then do
            let ty := typ.withType_ (typ.type_.filter (fun x => x ≠ SimpleTypes.null))
            let (ft, e') ← expand_type_ f e ty
            .ok (⟨"Option<" ++ ft.typ ++ ">", [], true⟩, e')
          else .ok (FieldType.ofTyp "serde_json::Value", e)
        | [t] =>
          match t with
          | .string =>
              match typ.enum_ with
              | some [] => .ok (FieldType.ofTyp "serde_json::Value", e)
              | _ => .ok (FieldType.ofTyp "String", e)
          | .integer => .ok (FieldType.ofTyp "i64", e)
          | .boolean => .ok (FieldType.ofTyp "bool", e)
          | .number => .ok (FieldType.ofTyp "f64", e)
          | .object =>
            if ¬ typ.properties.isEmpty
                || (match typ.additionalProperties with
                    | some (.inl false) => true
                    | _ => false) then do
              let name := pascalOf e.currentType ++ pascalOf e.currentField
              let (decl, e') ← expand_schema f e name typ
              .ok (FieldType.ofTyp name, {e' with types := e'.types ++ [(name, decl)]})
            else
              match typ.additionalProperties with
              | some (.inr ps) => do
                  let (ft, e') ← expand_type_ f e ps
                  .ok (⟨"::std::collections::BTreeMap<String, " ++ ft.typ ++ ">", [],
                        typ.default == some JValue.objEmpty⟩, e')
              | _ =>
                  .ok (⟨"::std::collections::BTreeMap<String, serde_json::Value>", [],
                        typ.default == some JValue.objEmpty⟩, e)
          | .array =>
            match typ.items with
            | [] => .ok (FieldType.ofTyp "Vec<serde_json::Value>", e)
            | it :: _ => do
                let e1 := {e with currentType := e.currentType ++ "Item"}
                let (ft, e') ← expand_type_ f e1 it
                .ok (FieldType.ofTyp ("Vec<" ++ ft.typ ++ ">"), e')
          | .null => .ok (FieldType.ofTyp "serde_json::Value", e)
        | _ => .ok (FieldType.ofTyp "serde_json::Value", e)

/-- `Expander::expand_type`: post-process the raw decision — box a type
that names the enclosing type, and `Option`-wrap a non-required,
non-defaultable type. -/
def expand_type : Nat → Expander → String → Bool → Schema → Except String (FieldType × Expander)
  | 0, _, _, _, _ => .error "recursion limit exceeded"
  | f+1, e, typeName, required, typ => do
      let (r0, e') ← expand_type_ f e typ
      let r1 := if typeName = r0.typ then {r0 with typ := "Box<" ++ r0.typ ++ ">"} else r0
      let r2 := if !required && !r1.default then {r1 with typ := "Option<" ++ r1.typ ++ ">"}
                else r1
      .ok (r2, e')

/-- The property loop of `FieldExpander::expand_fields`: per property,
set `current_field`, build the field token, look the name up in
`required`, expand the type, and clear the struct-level default flag
when the field type is not `Option`-wrapped. -/
def expand_fields_aux : Nat → Expander → Bool → String → Option (List String) →
    List (String × Schema) → Except String (List FieldInfo × Bool × Expander)
  | 0, _, _, _, _, _ => .error "recursion limit exceeded"
  | _+1, e, dflt, _, _, [] => .ok ([], dflt, e)
  | f+1, e, dflt, typeName, req, (fname, value) :: rest => do
      let e := {e with currentField := fname}
      let key ← field fname
      let required := match req with | some l => l.contains fname | none => false
      let (ft, e) ← expand_type f e typeName required value
      let dflt := if ¬ strStartsWith ft.typ "Option<" then false else dflt
      let info : FieldInfo :=
        ⟨fname, key.renames, key.ident, ft.typ, ft.default, ft.attributes, value.description⟩
      let (infos, dflt, e) ← expand_fields_aux f e dflt typeName req rest
      .ok (info :: infos, dflt, e)

/-- `FieldExpander::expand_fields`: normalize the node, then walk its
properties.  The `true` seed is the `FieldExpander { default: true }`
initialisation done by its only caller, `expand_schema`. -/
def expand_fields : Nat → Expander → String → Schema → Except String (List FieldInfo × Bool × Expander)
  | 0, _, _, _ => .error "recursion limit exceeded"
  | f+1, e, typeName, sch => do
      let sch' ← schema f e sch
      expand_fields_aux f e true typeName sch'.required sch'.properties

/-- `Expander::expand_schema`: nested definitions first, then the
top-level shape decision — record, enum (optionally wrapped when `null`
is a member), or alias. -/
def expand_schema : Nat → Expander → String → Schema → Except String (TypeDecl × Expander)
  | 0, _, _, _ => .error "recursion limit exceeded"
  | f+1, e, originalName, sch => do
      let e ← expand_definitions f e sch
      let pascalName := replace_invalid_identifier_chars (pascalOf originalName)
      let e := {e with currentType := pascalName}
      let (fields, dflt, e) ← expand_fields f e originalName sch
      let _ ← identNew pascalName
      if ¬ fields.isEmpty
          || (match sch.additionalProperties with
              | some (.inl false) => true
              | _ => false) then
        .ok (.structDecl pascalName fields dflt (renameFor pascalName originalName), e)
      else
        match sch.enum_ with
        | some (v :: vs) => do
            let (optional, variants) ← expand_variants (v :: vs)
            if optional then do
              let _ ← identNew (pascalName ++ "_")
              .ok (.optionalEnum pascalName (pascalName ++ "_") variants
                    (renameFor pascalName originalName), e)
            else
              .ok (.enumDecl pascalName variants (renameFor pascalName originalName), e)
        | _ => do
            let (ft, e) ← expand_type f e "" true sch
            .ok (.alias pascalName ft.typ, e)

/-- The definitions loop of `Expander::expand_definitions` (document
order = `BTreeMap` key order). -/
def expand_definitions_aux : Nat → Expander → List (String × Schema) → Except String Expander
  | 0, _, _ => .error "recursion limit exceeded"
  | _+1, e, [] => .ok e
  | f+1, e, (name, d) :: rest => do
      let (decl, e) ← expand_schema f e name d
      expand_definitions_aux f {e with types := e.types ++ [(name, decl)]} rest

/-- `Expander::expand_definitions`. -/
def expand_definitions : Nat → Expander → Schema → Except String Expander
  | 0, _, _ => .error "recursion limit exceeded"
  | f+1, e, sch => expand_definitions_aux f e sch.definitions

end

/-- `Expander::expand`, the driver: expand the root schema under the
configured root name when there is one, else only the definitions;
output the registry. -/
def expand (f : Nat) (e : Expander) (sch : Schema) : Except String (List (String × TypeDecl)) := do
  let e' ← match e.rootName with
    | some name => do
        let (decl, e1) ← expand_schema f e name sch
        .ok {e1 with types := e1.types ++ [(name, decl)]}
    | none => expand_definitions f e sch
  .ok e'.types

/-! ## Concrete schema documents used by the theorems below -/

/-- `{"type": "integer"}` -/
def intSchema : Schema := .mk none [.integer] [] none [] none none none none none none []

/-- `{"$ref": "#/definitions/Node"}` -/
def refNode : Schema := .mk (some "#/definitions/Node") [] [] none [] none none none none none none []

/-- `{"type": "object", "properties": {"next": {"$ref": "#/definitions/Node"}}}` -/
def nodeSchema : Schema := .mk none [.object] [("next", refNode)] none [] none none none none none none []

/-- `{"definitions": {"Node": ...}}`, the self-referential document. -/
def nodeRoot : Schema := .mk none [] [] none [] none none none none none none [("Node", nodeSchema)]

/-- `{"allOf": [{"type": "integer"}, {}]}` — the second element declares
no `type`. -/
def allOfNode : Schema :=
  .mk none [] [] none [] none none none (some [intSchema, Schema.empty]) none none []

/-- `{"$ref": "#/definitions/B"}` (stored as definition `A`). -/
def schemaA : Schema := .mk (some "#/definitions/B") [] [] none [] none none none none none none []

/-- `{"$ref": "#/definitions/A"}` -/
def refA : Schema := .mk (some "#/definitions/A") [] [] none [] none none none none none none []

/-- `{"definitions": {"A": {"$ref": "#/definitions/B"}, "B": {"type": "integer"}}}` -/
def chainRoot : Schema :=
  .mk none [] [] none [] none none none none none none [("A", schemaA), ("B", intSchema)]

/-- `{"type": "array", "items": [{"type": "integer"}]}` -/
def arrIntSchema : Schema := .mk none [.array] [] none [intSchema] none none none none none none []

/-- `{"anyOf": [{"type": "integer"}, {"type": "array", "items": [{"type": "integer"}]}]}`
— the one-or-many idiom. -/
def oneOrMany : Schema :=
  .mk none [] [] none [] none none (some [intSchema, arrIntSchema]) none none none []

/-- `{"type": "object", "properties": {"x": <oneOrMany>}, "required": ["x"]}` -/
def recA : Schema :=
  .mk none [.object] [("x", oneOrMany)] (some ["x"]) [] none none none none none none []

/-- `{"definitions": {"A": <recA>}}` -/
def rootA : Schema := .mk none [] [] none [] none none none none none none [("A", recA)]

/-- `{"enum": ["red", null], "additionalProperties": false}` -/
def colorBad : Schema :=
  .mk none [] [] none [] (some (.inl false)) (some [.str "red", .null]) none none none none []

/-- `{"enum": ["red", "green", null]}` -/
def colorSchema : Schema :=
  .mk none [] [] none [] none (some [.str "red", .str "green", .null]) none none none none []

/-- `{"type": "object", "properties": {"": {"type": "integer"}}}` — a
property whose name is the empty string. -/
def badProp : Schema := .mk none [.object] [("", intSchema)] none [] none none none none none none []

/-- `{"definitions": {"A": <badProp>}}` -/
def badRoot : Schema := .mk none [] [] none [] none none none none none none [("A", badProp)]

/-- `{"type": ["integer", "string"]}` — a two-tag list without `null`. -/
def twoTag : Schema := .mk none [.integer, .string] [] none [] none none none none none none []

/-- `{"type": ["null", "integer"]}` -/
def nullInt : Schema := .mk none [.null, .integer] [] none [] none none none none none none []

/-- `{"type": "object", "properties": {"x": {"type": "integer"}}}` -/
def inlineObj : Schema := .mk none [.object] [("x", intSchema)] none [] none none none none none none []

/-- `{"type": "object", "properties": {"alpha": <array of integer>, "beta": <inlineObj>}}` -/
def recB : Schema :=
  .mk none [.object] [("alpha", arrIntSchema), ("beta", inlineObj)] none [] none none none none none none []

/-- `{"definitions": {"Rec": <recB>}}` -/
def rootB : Schema := .mk none [] [] none [] none none none none none none [("Rec", recB)]

/-- A default expander used for concrete runs without references. -/
def eEmpty : Expander := Expander.new none "p" Schema.empty

/-! ## Helper lemmas -/

theorem exbind_ok {α β : Type} (a : α) (g : α → Except String β) :
    (Except.ok a >>= g) = g a := rfl

theorem exbind_error {α β : Type} (msg : String) (g : α → Except String β) :
    ((Except.error msg : Except String α) >>= g) = .error msg := rfl

/-! ## Claims -/

/-- `{"type": "array"}` with no `items`. -/
def arrNoItems : Schema := .mk none [.array] [] none [] none none none none none none []

/-- `{"anyOf": [{"type": "integer"}, {"type": "array"}]}` — a two-member
`anyOf` that misses the one-or-many pattern because the array member has
no `items`. -/
def anyOfBad : Schema :=
  .mk none [] [] none [] none none (some [intSchema, arrNoItems]) none none none []

/-- Claim C1 counterexample: an unrecognized two-member `anyOf` shape on
which the synthesizer aborts fatally instead of degrading — the second
member normalizes to an array-typed node with no `items`, and
`expand_type_` indexes `items[0]` (a panic in the Rust original). -/
theorem C1_counterexample :
    anyOfBad.anyOf = some [intSchema, arrNoItems] ∧
    arrNoItems.type_ = [SimpleTypes.array] ∧ arrNoItems.items = [] ∧
    expand_type_ 10 eEmpty anyOfBad =
      .error "index out of bounds: the len is 0 but the index is 0" := by
  exact ⟨rfl, rfl, rfl, rfl⟩

/-- Claim C1 (amended): every unrecognized shape degrades to the dynamic
`serde_json::Value` representation without aborting — a two-tag `type`
list without `null`, a two-member `anyOf` whose second member normalizes
to a non-array-typed node, an empty string enum, the unhandled single
`null` tag, or an empty / longer-than-two tag list — EXCEPT the
two-member `anyOf` whose second member normalizes to an array-typed node
with an empty `items` list: there the synthesizer indexes `items[0]` and
aborts fatally. -/
theorem C1_amended :
    (∀ (f : Nat) (e : Expander) (typ : Schema),
      typ.ref_ = none →
      ((typ.anyOf = none ∧ ∃ t1 t2, typ.type_ = [t1, t2] ∧ t1 ≠ SimpleTypes.null ∧ t2 ≠ SimpleTypes.null) ∨
       (∃ s1 s2 n1 n2, typ.anyOf = some [s1, s2] ∧ schema f e s1 = .ok n1 ∧
         schema f e s2 = .ok n2 ∧
         (n2.type_ = [] ∨ ∃ t0 ts, n2.type_ = t0 :: ts ∧ t0 ≠ SimpleTypes.array)) ∨
       (typ.anyOf = none ∧ typ.type_ = [SimpleTypes.string] ∧ typ.enum_ = some []) ∨
       (typ.anyOf = none ∧ typ.type_ = [SimpleTypes.null]) ∨
       (typ.anyOf = none ∧ (typ.type_ = [] ∨ ∃ a b c ts, typ.type_ = a :: b :: c :: ts))) →
      expand_type_ (f+1) e typ = .ok (FieldType.ofTyp "serde_json::Value", e)) ∧
    (∀ (f : Nat) (e : Expander) (typ s1 s2 n1 n2 : Schema),
      typ.ref_ = none → typ.anyOf = some [s1, s2] →
      schema f e s1 = .ok n1 → schema f e s2 = .ok n2 →
      (∃ ts, n2.type_ = SimpleTypes.array :: ts) → n2.items = [] →
      expand_type_ (f+1) e typ =
        .error "index out of bounds: the len is 0 but the index is 0") := by
  constructor
  · intro f e typ href h
    rcases h with ⟨hao, t1, t2, hty, h1, h2⟩ | ⟨s1, s2, n1, n2, hao, h1, h2, h3⟩ |
      ⟨hao, hty, hen⟩ | ⟨hao, hty⟩ | ⟨hao, hty | ⟨a, b, c, ts, hty⟩⟩
    · simp [expand_type_, href, hao, hty, h1, h2]
    · rcases h3 with h3 | ⟨t0, ts, hty2, hne⟩
      · simp [expand_type_, href, hao, h1, h2, h3, exbind_ok]
      · simp [expand_type_, href, hao, h1, h2, hty2, hne, exbind_ok]
    · simp [expand_type_, href, hao, hty, hen]
    · simp [expand_type_, href, hao, hty]
    · simp [expand_type_, href, hao, hty]
    · simp [expand_type_, href, hao, hty]
  · intro f e typ s1 s2 n1 n2 href hao h1 h2 hty hitems
    obtain ⟨ts, hty⟩ := hty
    simp [expand_type_, href, hao, h1, h2, hty, hitems, exbind_ok]

theorem C1_witness :
    expand_type_ 5 eEmpty twoTag = .ok (FieldType.ofTyp "serde_json::Value", eEmpty) ∧
    expand_type_ 5 eEmpty anyOfBad =
      .error "index out of bounds: the len is 0 but the index is 0" :=
  ⟨C1_amended.1 4 eEmpty twoTag rfl
     (Or.inl ⟨rfl, SimpleTypes.integer, SimpleTypes.string, rfl, by decide, by decide⟩),
   C1_amended.2 4 eEmpty anyOfBad intSchema arrNoItems intSchema arrNoItems
     rfl rfl rfl rfl ⟨[], rfl⟩ rfl⟩

/-- The `type`-merge rule the spec states: intersect only over elements
that declare a `type`. -/
def declaredTypeIntersection (base : List SimpleTypes) (elems : List (List SimpleTypes)) :
    List SimpleTypes :=
  elems.foldl (fun acc t => if t.isEmpty then acc else acc.filter (fun x => t.contains x)) base

/-- Claim C2 counterexample: normalizing `allOf: [{type: [integer]}, {}]`
empties the merged `type` set, whereas the claimed intersection over only
the type-declaring elements would leave `[integer]`. -/
theorem C2_counterexample :
    (schema 10 eEmpty allOfNode).map (fun s => s.type_) = .ok [] ∧
    declaredTypeIntersection intSchema.type_ [Schema.empty.type_] = [SimpleTypes.integer] ∧
    ([] : List SimpleTypes) ≠ [SimpleTypes.integer] := by
  exact ⟨rfl, rfl, by decide⟩

/-- Claim C2 (amended): the merged node's `type` set is the
unconditional intersection — `result.type_` retains exactly the tags the
other element also lists, so an element with no declared `type` empties
the merged set. -/
theorem C2_amended (a b : Schema) :
    (merge_all_of a b).type_ = a.type_.filter (fun t => b.type_.contains t) := by
  cases a; cases b; rfl


/-- Is an enum member a string or the `null` literal (the two shapes the
variant loop accepts)? -/
def isStringOrNull : JValue → Bool
  | .str _ => true
  | .null => true
  | _ => false

theorem expand_variants_bad {l : List JValue} (h : ∃ v ∈ l, isStringOrNull v = false) :
    (expand_variants l).isOk = false := by
  induction l with
  | nil => simp at h
  | cons v rest ih =>
    rcases h with ⟨w, hw, hbad⟩
    rcases List.mem_cons.mp hw with hv | hrest
    · subst hv
      cases w with
      | str s => simp [isStringOrNull] at hbad
      | null => simp [isStringOrNull] at hbad
      | bool b => simp [expand_variants, Except.isOk, Except.toBool]
      | num n => simp [expand_variants, Except.isOk, Except.toBool]
      | arrayV => simp [expand_variants, Except.isOk, Except.toBool]
      | objEmpty => simp [expand_variants, Except.isOk, Except.toBool]
      | objNonEmpty => simp [expand_variants, Except.isOk, Except.toBool]
    · have hih := ih ⟨w, hrest, hbad⟩
      have herr : ∃ msg, expand_variants rest = .error msg := by
        cases hr : expand_variants rest with
        | ok x => rw [hr] at hih; simp [Except.isOk, Except.toBool] at hih
        | error msg => exact ⟨msg, rfl⟩
      rcases herr with ⟨msg, hmsg⟩
      cases v with
      | str s =>
        cases hk : rename_keyword "" (pascalOf s) with
        | some t => simp [expand_variants, hk, hmsg, exbind_ok, exbind_error, Except.isOk, Except.toBool]
        | none =>
          cases hi : identNew (pascalOf s) with
          | ok id => simp [expand_variants, hk, hi, hmsg, exbind_ok, exbind_error, Except.isOk, Except.toBool]
          | error m2 => simp [expand_variants, hk, hi, hmsg, exbind_ok, exbind_error, Except.isOk, Except.toBool]
      | null => simp [expand_variants, hmsg, exbind_ok, exbind_error, Except.isOk, Except.toBool]
      | bool b => simp [expand_variants, Except.isOk, Except.toBool]
      | num n => simp [expand_variants, Except.isOk, Except.toBool]
      | arrayV => simp [expand_variants, Except.isOk, Except.toBool]
      | objEmpty => simp [expand_variants, Except.isOk, Except.toBool]
      | objNonEmpty => simp [expand_variants, Except.isOk, Except.toBool]

/-- Claim C3 (amended): generation aborts fatally at least in the three
claimed conditions — a reference whose last path segment is missing from
the root `definitions`, the bare root marker `#` with no configured root
name, and a non-string non-null literal inside an `enum`. -/
theorem C3_amended :
    (∀ (e : Expander) (r k : String), splitSlash r = ["#", "definitions", k] →
        k ≠ "#" → k ≠ "definitions" →
        e.root.definitions.lookup k = none →
        schema_ref e r = .error ("Expected definition: `" ++ r ++ "` " ++ k)) ∧
    (∀ (p : String) (root : Schema) (ct cf : String) (ts : List (String × TypeDecl)),
        type_ref ⟨none, p, root, ct, cf, ts⟩ "#" = .error "No root name specified for schema") ∧
    (∀ (f : Nat) (e : Expander) (name : String) (s : Schema) (l : List JValue),
        s.ref_ = none → s.allOf = none → s.properties = [] → s.definitions = [] →
        s.additionalProperties = none → s.enum_ = some l →
        (∃ v ∈ l, isStringOrNull v = false) →
        (expand_schema (f+3) e name s).isOk = false) := by
  refine ⟨?_, ?_, ?_⟩
  · intro e r k hsplit hk1 hk2 hlook
    simp [schema_ref, hsplit, List.foldlM, hk1, hk2, hlook, exbind_ok]
  · intro p root ct cf ts
    rfl
  · intro f e name s l href hallOf hprops hdefs hAP henum hbad
    rcases hbad with ⟨w, hw, hbadw⟩
    cases l with
    | nil => simp at hw
    | cons v vs =>
      have hvar : (expand_variants (v :: vs)).isOk = false :=
        expand_variants_bad ⟨w, hw, hbadw⟩
      have herr : ∃ msg, expand_variants (v :: vs) = .error msg := by
        cases hr : expand_variants (v :: vs) with
        | ok x => rw [hr] at hvar; simp [Except.isOk, Except.toBool] at hvar
        | error msg => exact ⟨msg, rfl⟩
      rcases herr with ⟨msg, hmsg⟩
      cases hid : identNew (replace_invalid_identifier_chars (pascalOf name)) with
      | ok idn =>
        simp [expand_schema, expand_definitions, expand_definitions_aux, expand_fields,
          schema, expand_fields_aux, href, hallOf, hprops, hdefs, hAP, henum, hid, hmsg,
          exbind_ok, exbind_error, Except.isOk, Except.toBool]
      | error m2 =>
        simp [expand_schema, expand_definitions, expand_definitions_aux, expand_fields,
          schema, expand_fields_aux, href, hallOf, hprops, hdefs, hAP, henum, hid, hmsg,
          exbind_ok, exbind_error, Except.isOk, Except.toBool]


/-- `{"enum": ["red", true]}` — a boolean literal inside `enum`. -/
def enumBad : Schema :=
  .mk none [] [] none [] none (some [.str "red", .bool true]) none none none none []

/-- Claim C3 counterexample: "exactly these conditions" fails — a
document with a property named `""` (no refs and no enums anywhere)
still aborts, in the identifier constructor. -/
theorem C3_counterexample :
    expand 20 (Expander.new none "p" badRoot) badRoot = .error "`` is not a valid Ident" ∧
    badProp.ref_ = none ∧ badProp.enum_ = none ∧ intSchema.ref_ = none ∧
    intSchema.enum_ = none := by
  exact ⟨rfl, rfl, rfl, rfl, rfl⟩

theorem C3_witness :
    schema_ref (Expander.new none "p" Schema.empty) "#/definitions/Missing" =
      .error "Expected definition: `#/definitions/Missing` Missing" ∧
    type_ref eEmpty "#" = .error "No root name specified for schema" ∧
    (expand_schema 10 eEmpty "Color" enumBad).isOk = false :=
  ⟨C3_amended.1 (Expander.new none "p" Schema.empty) "#/definitions/Missing" "Missing"
      rfl (by decide) (by decide) rfl,
   C3_amended.2.1 "p" Schema.empty "" "" [],
   C3_amended.2.2 7 eEmpty "Color" enumBad [.str "red", .bool true]
      rfl rfl rfl rfl rfl rfl ⟨JValue.bool true, by simp, rfl⟩⟩

theorem strStartsWith_optionAppend (x : String) :
    strStartsWith ("Option<" ++ x) "Option<" = true := by
  have h : ("Option<" ++ x).data = "Option<".data ++ x.data := by
    cases x; rfl
  simp [strStartsWith, h, List.isPrefixOf_iff_prefix]


/-- Claim C4: a field synthesized from a `ref` whose sanitized target
name equals the enclosing type's name is wrapped in `Box` (then
`Option`-wrapped when not required); the self-referential `Node`
document yields a record `Node` whose `next` field has type
`Option<Box<Node>>`. -/
theorem C4_self_reference_boxed :
    (∀ (f : Nat) (e : Expander) (req : Bool) (typ : Schema) (r n : String),
        typ.ref_ = some r → type_ref e r = .ok n →
        expand_type (f+2) e n req typ =
          .ok (⟨if req then "Box<" ++ n ++ ">" else "Option<" ++ ("Box<" ++ n ++ ">") ++ ">",
                [], false⟩, e)) ∧
    expand 20 (Expander.new none "::schemafy_core::" nodeRoot) nodeRoot =
      .ok [("Node",
        .structDecl "Node" [⟨"next", [], "next", "Option<Box<Node>>", false, [], none⟩]
          true none)] := by
  constructor
  · intro f e req typ r n href htr
    cases req <;>
      simp [expand_type, expand_type_, href, htr, exbind_ok, FieldType.ofTyp]
  · rfl

theorem C4_witness :
    expand_type 5 (Expander.new none "p" nodeRoot) "Node" false refNode =
      .ok (⟨"Option<Box<Node>>", [], false⟩, Expander.new none "p" nodeRoot) :=
  C4_self_reference_boxed.1 3 (Expander.new none "p" nodeRoot) false refNode
    "#/definitions/Node" "Node" rfl rfl

theorem strAppend_assoc (a b c : String) : (a ++ b) ++ c = a ++ (b ++ c) := by
  cases a with
  | mk da =>
    cases b with
    | mk db =>
      cases c with
      | mk dc =>
        show String.mk ((da ++ db) ++ dc) = String.mk (da ++ (db ++ dc))
        rw [List.append_assoc]

theorem expand_type__twotag_null (f : Nat) (e : Expander) (typ : Schema) (t1 t2 : SimpleTypes)
    (href : typ.ref_ = none) (hao : typ.anyOf = none) (hty : typ.type_ = [t1, t2])
    (hnull : t1 = SimpleTypes.null ∨ t2 = SimpleTypes.null)
    (ft : FieldType) (e' : Expander)
    (h : expand_type_ (f+1) e typ = .ok (ft, e')) :
    ∃ x, ft = ⟨"Option<" ++ x, [], true⟩ := by
  simp only [expand_type_, href, hao, hty] at h
  rw [if_pos hnull] at h
  cases hb : expand_type_ f e (typ.withType_ ([t1, t2].filter (fun x => x ≠ SimpleTypes.null))) with
  | error msg =>
    rw [hb, exbind_error] at h
    exact Except.noConfusion h
  | ok p =>
    rw [hb, exbind_ok] at h
    injection h with h1
    injection h1 with h2 h3
    exact ⟨p.1.typ ++ ">", by rw [← strAppend_assoc]; exact h2.symm⟩

/-- Claim C5: optionality monotonicity — a non-required property always
synthesizes to an `Option`-wrapped or default-applicable representation,
and a required property with a two-tag `type` list containing `null`
still synthesizes to an `Option`-wrapped type. -/
theorem C5_optionality :
    (∀ (f : Nat) (e : Expander) (tn : String) (typ : Schema) (ft : FieldType) (e' : Expander),
        expand_type f e tn false typ = .ok (ft, e') →
        strStartsWith ft.typ "Option<" = true ∨ ft.default = true) ∧
    (∀ (f : Nat) (e : Expander) (tn : String) (typ : Schema) (t1 t2 : SimpleTypes)
        (ft : FieldType) (e' : Expander),
        typ.ref_ = none → typ.anyOf = none → typ.type_ = [t1, t2] →
        (t1 = SimpleTypes.null ∨ t2 = SimpleTypes.null) →
        strStartsWith tn "Option<" = false →
        expand_type (f+2) e tn true typ = .ok (ft, e') →
        strStartsWith ft.typ "Option<" = true) := by
  constructor
  · intro f e tn typ ft e' h
    cases f with
    | zero => simp [expand_type] at h
    | succ g =>
      cases hr : expand_type_ g e typ with
      | error msg => simp [expand_type, hr, exbind_error] at h
      | ok p =>
        obtain ⟨r0, e1⟩ := p
        by_cases hbox : tn = r0.typ
        · by_cases hdef : r0.default
          · right
            simp [expand_type, hr, exbind_ok, hbox, hdef, exbind_error] at h
            rw [← h.1]
          · left
            simp [expand_type, hr, exbind_ok, hbox, hdef] at h
            rw [← h.1]
            exact strStartsWith_optionAppend _
        · by_cases hdef : r0.default
          · right
            simp [expand_type, hr, exbind_ok, hbox, hdef] at h
            rw [← h.1]
            exact hdef
          · left
            simp [expand_type, hr, exbind_ok, hbox, hdef] at h
            rw [← h.1]
            exact strStartsWith_optionAppend _
  · intro f e tn typ t1 t2 ft e' href hao hty hnull htn h
    cases hr : expand_type_ (f+1) e typ with
    | error msg => simp [expand_type, hr, exbind_error] at h
    | ok p =>
      obtain ⟨r0, e1⟩ := p
      obtain ⟨x, hx⟩ := expand_type__twotag_null f e typ t1 t2 href hao hty hnull r0 e1 hr
      subst hx
      have hne : tn ≠ "Option<" ++ x := by
        intro heq
        rw [heq, strStartsWith_optionAppend] at htn
        exact Bool.noConfusion htn
      simp [expand_type, hr, exbind_ok, hne] at h
      rw [← h.1]
      exact strStartsWith_optionAppend _

theorem C5_witness :
    (strStartsWith "Option<i64>" "Option<" = true ∨ (false : Bool) = true) ∧
    strStartsWith "Option<i64>" "Option<" = true :=
  ⟨C5_optionality.1 5 eEmpty "T" intSchema ⟨"Option<i64>", [], false⟩ eEmpty rfl,
   C5_optionality.2 3 eEmpty "T" nullInt .null .integer ⟨"Option<i64>", [], true⟩ eEmpty
     rfl rfl rfl (Or.inl rfl) rfl rfl⟩


theorem merge_all_of_allOf (a b : Schema) : (merge_all_of a b).allOf = a.allOf := by
  cases a; cases b; rfl

theorem normAllOfFold_allOf :
    ∀ (l : List Schema) (f : Nat) (e : Expander) (acc r : Schema),
      normAllOfFold f e acc l = .ok r → r.allOf = acc.allOf := by
  intro l
  induction l with
  | nil =>
    intro f e acc r h
    cases f with
    | zero => simp [normAllOfFold] at h
    | succ g =>
      simp only [normAllOfFold] at h
      injection h with h1
      rw [← h1]
  | cons d rest ih =>
    intro f e acc r h
    cases f with
    | zero => simp [normAllOfFold] at h
    | succ g =>
      simp only [normAllOfFold] at h
      cases hs : schema g e d with
      | error msg => rw [hs, exbind_error] at h; exact Except.noConfusion h
      | ok nd =>
        rw [hs, exbind_ok] at h
        rw [ih g e (merge_all_of acc nd) r h]
        exact merge_all_of_allOf acc nd

theorem schema_allOf :
    ∀ (f : Nat) (e : Expander) (s t : Schema),
      schema f e s = .ok t → t.allOf = none ∨ t.allOf = some [] := by
  intro f
  induction f with
  | zero => intro e s t h; simp [schema] at h
  | succ g ih =>
    intro e s t h
    simp only [schema] at h
    split at h
    next =>
      rename_i r href
      cases hrr : schema_ref e r with
      | error msg => rw [hrr, exbind_error] at h; exact Except.noConfusion h
      | ok s2 =>
        rw [hrr, exbind_ok] at h
        split at h
        next a rest hao =>
          cases hseed : schema g e a with
          | error msg => rw [hseed, exbind_error] at h; exact Except.noConfusion h
          | ok seed =>
            rw [hseed, exbind_ok] at h
            rw [normAllOfFold_allOf rest g e seed t h]
            exact ih e a seed hseed
        next hno =>
          injection h with h1
          rw [← h1]
          rcases hao2 : s2.allOf with _ | (_ | ⟨a, rest⟩)
          · exact Or.inl rfl
          · exact Or.inr rfl
          · exact (hno a rest hao2).elim
    next =>
      rw [exbind_ok] at h
      split at h
      next a rest hao =>
        cases hseed : schema g e a with
        | error msg => rw [hseed, exbind_error] at h; exact Except.noConfusion h
        | ok seed =>
          rw [hseed, exbind_ok] at h
          rw [normAllOfFold_allOf rest g e seed t h]
          exact ih e a seed hseed
      next hno =>
        injection h with h1
        rw [← h1]
        rcases hao2 : s.allOf with _ | (_ | ⟨a, rest⟩)
        · exact Or.inl rfl
        · exact Or.inr rfl
        · exact (hno a rest hao2).elim

/-- Claim C6 (amended): allOf is gone after one application, and
renormalizing is a no-op whenever the produced node carries no residual
`ref`. -/
theorem C6_amended (f : Nat) (e : Expander) (s t : Schema)
    (h : schema f e s = .ok t) :
    (t.allOf = none ∨ t.allOf = some []) ∧
      (t.ref_ = none → ∀ f', schema (f'+1) e t = .ok t) := by
  refine ⟨schema_allOf f e s t h, ?_⟩
  intro htref f'
  rcases schema_allOf f e s t h with hao | hao <;>
    simp [schema, htref, hao, exbind_ok]

/-- Claim C6 counterexample: a two-step reference chain survives one
normalization with a `ref` intact, and renormalizing changes the node. -/
theorem C6_counterexample :
    schema 10 (Expander.new none "p" chainRoot) refA = .ok schemaA ∧
    schema 10 (Expander.new none "p" chainRoot) schemaA ≠ .ok schemaA := by
  constructor
  · rfl
  · intro h
    have h' : Except.ok (ε := String) intSchema = Except.ok schemaA := h
    injection h' with h''
    have hc := congrArg Schema.ref_ h''
    exact Option.noConfusion hc

theorem C6_witness :
    schema 10 eEmpty intSchema = .ok intSchema ∧
    schema 5 eEmpty intSchema = .ok intSchema :=
  ⟨rfl, (C6_amended 10 eEmpty intSchema intSchema rfl).2 rfl 4⟩


theorem expand_fields_aux_default :
    ∀ (f : Nat) (props : List (String × Schema)) (e : Expander) (d0 : Bool) (tn : String)
      (req : Option (List String)) (infos : List FieldInfo) (d1 : Bool) (e' : Expander),
      expand_fields_aux f e d0 tn req props = .ok (infos, d1, e') →
      d1 = (d0 && infos.all (fun fi => strStartsWith fi.typ "Option<")) := by
  intro f
  induction f with
  | zero => intro props e d0 tn req infos d1 e' h; simp [expand_fields_aux] at h
  | succ g ih =>
    intro props e d0 tn req infos d1 e' h
    cases props with
    | nil =>
      simp only [expand_fields_aux] at h
      injection h with h1
      injection h1 with hinfos h2
      injection h2 with hd he
      rw [← hd, ← hinfos]
      simp
    | cons p rest =>
      obtain ⟨fname, value⟩ := p
      cases req with
      | none =>
        simp only [expand_fields_aux] at h
        cases hk : field fname with
        | error msg => rw [hk, exbind_error] at h; exact Except.noConfusion h
        | ok key =>
          rw [hk, exbind_ok] at h
          cases het : expand_type g {e with currentField := fname} tn false value with
          | error msg => rw [het, exbind_error] at h; exact Except.noConfusion h
          | ok p2 =>
            obtain ⟨ft, e2⟩ := p2
            rw [het, exbind_ok] at h
            cases hrec : expand_fields_aux g e2
                (if ¬ strStartsWith ft.typ "Option<" then false else d0) tn none rest with
            | error msg => rw [hrec, exbind_error] at h; exact Except.noConfusion h
            | ok p3 =>
              obtain ⟨infos2, d2, e3⟩ := p3
              rw [hrec, exbind_ok] at h
              injection h with h1
              injection h1 with hinfos h2
              injection h2 with hd he
              have hih := ih rest e2 _ tn none infos2 d2 e3 hrec
              rw [← hd, ← hinfos, hih]
              by_cases hsw : strStartsWith ft.typ "Option<" <;> simp [hsw]
      | some l =>
        simp only [expand_fields_aux] at h
        cases hk : field fname with
        | error msg => rw [hk, exbind_error] at h; exact Except.noConfusion h
        | ok key =>
          rw [hk, exbind_ok] at h
          cases het : expand_type g {e with currentField := fname} tn (l.contains fname) value with
          | error msg => rw [het, exbind_error] at h; exact Except.noConfusion h
          | ok p2 =>
            obtain ⟨ft, e2⟩ := p2
            rw [het, exbind_ok] at h
            cases hrec : expand_fields_aux g e2
                (if ¬ strStartsWith ft.typ "Option<" then false else d0) tn (some l) rest with
            | error msg => rw [hrec, exbind_error] at h; exact Except.noConfusion h
            | ok p3 =>
              obtain ⟨infos2, d2, e3⟩ := p3
              rw [hrec, exbind_ok] at h
              injection h with h1
              injection h1 with hinfos h2
              injection h2 with hd he
              have hih := ih rest e2 _ tn (some l) infos2 d2 e3 hrec
              rw [← hd, ← hinfos, hih]
              by_cases hsw : strStartsWith ft.typ "Option<" <;> simp [hsw]

theorem expand_fields_default (f : Nat) (e : Expander) (tn : String) (sch : Schema)
    (infos : List FieldInfo) (d1 : Bool) (e' : Expander)
    (h : expand_fields f e tn sch = .ok (infos, d1, e')) :
    d1 = infos.all (fun fi => strStartsWith fi.typ "Option<") := by
  cases f with
  | zero => simp [expand_fields] at h
  | succ g =>
    simp only [expand_fields] at h
    cases hs : schema g e sch with
    | error msg => rw [hs, exbind_error] at h; exact Except.noConfusion h
    | ok sch' =>
      rw [hs, exbind_ok] at h
      have := expand_fields_aux_default g sch'.properties e true tn sch'.required infos d1 e' h
      simpa using this

/-- Claim C7 (amended): `Default` is derived exactly when every field
type is `Option`-wrapped. -/
theorem C7_amended (f : Nat) (e : Expander) (name : String) (s : Schema) (pn : String)
    (fields : List FieldInfo) (dflt : Bool) (rn : Option String) (e' : Expander)
    (h : expand_schema f e name s = .ok (.structDecl pn fields dflt rn, e')) :
    dflt = fields.all (fun fi => strStartsWith fi.typ "Option<") := by
  cases f with
  | zero => simp [expand_schema] at h
  | succ g =>
    simp only [expand_schema] at h
    cases hd : expand_definitions g e s with
    | error msg => rw [hd, exbind_error] at h; exact Except.noConfusion h
    | ok e1 =>
      rw [hd, exbind_ok] at h
      cases hf : expand_fields g {e1 with currentType := replace_invalid_identifier_chars (pascalOf name)} name s with
      | error msg => rw [hf, exbind_error] at h; exact Except.noConfusion h
      | ok p =>
        obtain ⟨fields0, d0, e2⟩ := p
        rw [hf, exbind_ok] at h
        cases hi : identNew (replace_invalid_identifier_chars (pascalOf name)) with
        | error msg => rw [hi, exbind_error] at h; exact Except.noConfusion h
        | ok idn =>
          rw [hi, exbind_ok] at h
          have hfd := expand_fields_default g _ name s fields0 d0 e2 hf
          by_cases hstr : (¬ fields0.isEmpty ||
              (match s.additionalProperties with
               | some (.inl false) => true
               | _ => false) : Bool) = true
          · rw [if_pos hstr] at h
            injection h with h1
            injection h1 with hdecl he
            injection hdecl with hpn hfields hdflt hrn
            rw [← hdflt, ← hfields]
            exact hfd
          · rw [if_neg hstr] at h
            split at h
            next v vs henum =>
              cases hv : expand_variants (v :: vs) with
              | error msg => rw [hv, exbind_error] at h; exact Except.noConfusion h
              | ok p2 =>
                obtain ⟨optional, variants⟩ := p2
                rw [hv, exbind_ok] at h
                by_cases hopt : optional = true
                · rw [if_pos hopt] at h
                  cases hi2 : identNew (replace_invalid_identifier_chars (pascalOf name) ++ "_") with
                  | error msg => rw [hi2, exbind_error] at h; exact Except.noConfusion h
                  | ok idn2 =>
                    rw [hi2, exbind_ok] at h
                    injection h with h1
                    injection h1 with hdecl he
                    exact TypeDecl.noConfusion hdecl
                · rw [if_neg hopt] at h
                  injection h with h1
                  injection h1 with hdecl he
                  exact TypeDecl.noConfusion hdecl
            next hno =>
              cases ht : expand_type g e2 "" true s with
              | error msg => rw [ht, exbind_error] at h; exact Except.noConfusion h
              | ok p2 =>
                obtain ⟨ft, e3⟩ := p2
                rw [ht, exbind_ok] at h
                injection h with h1
                injection h1 with hdecl he
                exact TypeDecl.noConfusion hdecl

/-- Claim C7 counterexample: the `x` field is default-applicable
(`#[serde(default)]`, `default := true`) yet not `Option`-wrapped, so
`Default` is not derived although every field is optional-or-defaultable. -/
theorem C7_counterexample :
    expand 20 (Expander.new none "::schemafy_core::" rootA) rootA =
      .ok [("A", .structDecl "A"
        [⟨"x", [], "x", "Vec<i64>", true, ["with=\"::schemafy_core::one_or_many\""], none⟩]
        false none)] := by
  rfl

theorem C7_witness :
    (true : Bool) =
      List.all [(⟨"next", [], "next", "Option<Box<Node>>", false, [], none⟩ : FieldInfo)]
        (fun fi => strStartsWith fi.typ "Option<") :=
  C7_amended 10 (Expander.new none "p" nodeRoot) "Node" nodeSchema "Node"
    [⟨"next", [], "next", "Option<Box<Node>>", false, [], none⟩] true none
    ⟨none, "p", nodeRoot, "Node", "next", []⟩ rfl


/-- Shape condition under which the variant loop accepts one enum
member without panicking: `null`, or a string whose pascal-cased form is
a keyword or a legal identifier. -/
def enumMemberOk : JValue → Bool
  | .str s => validIdent (pascalOf s) || rustKeywords.contains (pascalOf s)
  | .null => true
  | _ => false

/-- The variant token the loop produces for one accepted member
(`none` for the skipped `null`). -/
def variantFor : JValue → Option FieldTok
  | .str s =>
    let pv := pascalOf s
    let tok := match rename_keyword "" pv with
               | some t => t
               | none => ⟨[], pv⟩
    some (if pv = s then tok else {tok with renames := s :: tok.renames})
  | _ => none

theorem rename_keyword_none {pfx s : String} (h : rename_keyword pfx s = none) :
    rustKeywords.contains s = false := by
  cases hc : rustKeywords.contains s with
  | false => rfl
  | true =>
    simp [rename_keyword] at h
    exact absurd (List.mem_of_elem_eq_true hc) h

theorem expand_variants_ok :
    ∀ (l : List JValue), (∀ v ∈ l, enumMemberOk v = true) →
      expand_variants l = .ok (l.contains JValue.null, l.filterMap variantFor) := by
  intro l
  induction l with
  | nil => intro h; rfl
  | cons v rest ih =>
    intro h
    have hv := h v (List.mem_cons_self v rest)
    have hrest := ih (fun w hw => h w (List.mem_cons_of_mem v hw))
    cases v with
    | str s =>
      cases hk : rename_keyword "" (pascalOf s) with
      | some t =>
        simp only [expand_variants, hk, exbind_ok, hrest]
        simp [variantFor, hk, List.filterMap_cons, List.contains_cons]
      | none =>
        have hkc := rename_keyword_none hk
        have hvalid : validIdent (pascalOf s) = true := by
          simp [enumMemberOk] at hv
          rcases hv with hv | hv
          · exact hv
          · have hkc2 : List.elem (pascalOf s) rustKeywords = false := hkc
            rw [List.elem_eq_true_of_mem hv] at hkc2
            exact Bool.noConfusion hkc2
        simp only [expand_variants, hk, identNew, hvalid, if_pos, exbind_ok, hrest]
        simp [variantFor, hk, List.filterMap_cons, List.contains_cons]
    | null =>
      simp only [expand_variants, hrest, exbind_ok]
      simp [variantFor, List.filterMap_cons, List.contains_cons]
    | bool b => simp [enumMemberOk] at hv
    | num n => simp [enumMemberOk] at hv
    | arrayV => simp [enumMemberOk] at hv
    | objEmpty => simp [enumMemberOk] at hv
    | objNonEmpty => simp [enumMemberOk] at hv

theorem validIdent_underscore {s : String} (h : validIdent s = true) :
    validIdent (s ++ "_") = true := by
  cases s with
  | mk data =>
    cases data with
    | nil => simp [validIdent] at h
    | cons c cs =>
      have happ : (String.mk (c :: cs) ++ "_").data = c :: (cs ++ ['_']) := rfl
      simp only [validIdent, happ]
      simp only [validIdent] at h
      simp only [List.all_append] at *
      simp at h ⊢
      exact ⟨h.1, h.2⟩

/-- Claim C8 (amended): a named schema with no properties, an enum
containing `null`, `additionalProperties` not literally `false`, and
well-formed members produces the optional wrapper plus auxiliary enum. -/
theorem C8_amended (f : Nat) (e : Expander) (name : String) (s : Schema) (l : List JValue)
    (href : s.ref_ = none) (hallOf : s.allOf = none)
    (hprops : s.properties = []) (hdefs : s.definitions = [])
    (hAP : (match s.additionalProperties with
            | some (.inl false) => true
            | _ => false) = false)
    (henum : s.enum_ = some l) (hnull : JValue.null ∈ l)
    (hmem : ∀ v ∈ l, enumMemberOk v = true)
    (hname : validIdent (replace_invalid_identifier_chars (pascalOf name)) = true) :
    expand_schema (f+3) e name s =
      .ok (.optionalEnum (replace_invalid_identifier_chars (pascalOf name))
            (replace_invalid_identifier_chars (pascalOf name) ++ "_")
            (l.filterMap variantFor)
            (renameFor (replace_invalid_identifier_chars (pascalOf name)) name),
        {e with currentType := replace_invalid_identifier_chars (pascalOf name)}) := by
  have hd : expand_definitions (f+2) e s = .ok e := by
    simp [expand_definitions, expand_definitions_aux, hdefs]
  have hfld : expand_fields (f+2)
      {e with currentType := replace_invalid_identifier_chars (pascalOf name)} name s =
      .ok ([], true, {e with currentType := replace_invalid_identifier_chars (pascalOf name)}) := by
    simp [expand_fields, schema, href, hallOf, hprops, expand_fields_aux, exbind_ok]
  have hcontains : l.contains JValue.null = true := by
    exact List.elem_eq_true_of_mem hnull
  cases l with
  | nil => simp at hnull
  | cons v vs =>
    have hvar := expand_variants_ok (v :: vs) hmem
    simp only [expand_schema, hd, exbind_ok, hfld, identNew, hname, if_pos, henum,
      hvar, hcontains, List.isEmpty_nil, hAP]
    simp [validIdent_underscore hname, identNew, exbind_ok, hcontains]

/-- Claim C8 counterexample: all of the claim's stated conditions hold
(no properties, non-empty enum containing `null`), yet
`additionalProperties: false` makes `expand_schema` emit a closed empty
record, not an optional enum wrapper. -/
theorem C8_counterexample :
    colorBad.properties = [] ∧ colorBad.enum_ = some [.str "red", .null] ∧
    expand_schema 10 eEmpty "Color" colorBad =
      .ok (.structDecl "Color" [] true none,
        ⟨none, "p", Schema.empty, "Color", "", []⟩) := by
  exact ⟨rfl, rfl, rfl⟩

theorem C8_witness :
    expand_schema 10 eEmpty "Color" colorSchema =
      .ok (.optionalEnum "Color" "Color_"
            [⟨["red"], "Red"⟩, ⟨["green"], "Green"⟩] none,
        ⟨none, "p", Schema.empty, "Color", "", []⟩) :=
  C8_amended 7 eEmpty "Color" colorSchema [.str "red", .str "green", .null]
    rfl rfl rfl rfl rfl rfl (by simp) (by decide) (by decide)


/-- Claim C9 counterexample: the empty string defeats both halves of the
sanitizer — the type-name path returns the illegal empty identifier and
the field path aborts in `syn::Ident::new`. -/
theorem C9_counterexample :
    field "" = .error "`` is not a valid Ident" ∧
    replace_invalid_identifier_chars (pascalOf "") = "" ∧
    validIdent "" = false := by
  exact ⟨rfl, rfl, rfl⟩

/-- Claim C9 (amended): the sanitizer always returns a string of
alphanumerics and underscores; that string is a legal identifier exactly
when it is non-empty and its first character is a letter or underscore,
and the field path succeeds on every name that is already a legal,
non-keyword snake-case identifier. -/
theorem C9_amended :
    (∀ s : String, (replace_invalid_identifier_chars s).data.all
        (fun c => c.isAlphanum || c == '_') = true) ∧
    (∀ (s : String) (c : Char) (cs : List Char),
        (replace_invalid_identifier_chars s).data = c :: cs →
        validIdent (replace_invalid_identifier_chars s) = (c.isAlpha || c == '_')) ∧
    (∀ s : String, rustKeywords.contains s = false → snakeOf s = s →
        strContains s '$' = false → strContains s '#' = false →
        validIdent s = true → field s = .ok ⟨[], s⟩) := by
  have hall : ∀ s : String, (replace_invalid_identifier_chars s).data.all
      (fun c => c.isAlphanum || c == '_') = true := by
    intro s
    have hdata : (replace_invalid_identifier_chars s).data =
        s.data.map (fun c => if c.isAlphanum ∨ c = '_' then c else '_') := rfl
    rw [hdata, List.all_map]
    rw [List.all_eq_true]
    intro c hc
    by_cases h : c.isAlphanum ∨ c = '_'
    · rcases h with h | h <;> simp [h]
    · simp [h]
  refine ⟨hall, ?_, ?_⟩
  · intro s c cs hdata
    have h1 := hall s
    rw [hdata] at h1
    simp only [List.all_cons, Bool.and_eq_true] at h1
    simp only [validIdent, hdata]
    rw [h1.2]
    simp
  · intro s hkw hsnake hd hh hvalid
    have hrk : rename_keyword "pub" s = none := by
      unfold rename_keyword
      rw [hkw]
      simp
    simp [field, hrk, hsnake, hd, hh, identNew, hvalid, exbind_ok]

theorem C9_witness :
    validIdent (replace_invalid_identifier_chars "a-b") =
      ('a'.isAlpha || 'a' == '_') ∧
    field "hello" = .ok ⟨[], "hello"⟩ :=
  ⟨C9_amended.2.1 "a-b" 'a' ['_', 'b'] (by decide),
   C9_amended.2.2 "hello" (by decide) rfl (by decide) (by decide) (by decide)⟩

/-- Claim C10: an array field permanently appends "Item" to the naming
context, and a later inline object in the same record is registered
under a name containing "Item". -/
theorem C10_array_item_suffix :
    (∀ (f : Nat) (e : Expander) (typ it : Schema) (rest : List Schema)
        (ft : FieldType) (e' : Expander),
        typ.ref_ = none → typ.anyOf = none → typ.type_ = [SimpleTypes.array] →
        typ.items = it :: rest →
        expand_type_ (f+1) e typ = .ok (ft, e') →
        ∃ (fti : FieldType) (e'' : Expander),
          expand_type_ f {e with currentType := e.currentType ++ "Item"} it = .ok (fti, e'') ∧
          e' = e'' ∧ ft = FieldType.ofTyp ("Vec<" ++ fti.typ ++ ">")) ∧
    expand 30 (Expander.new none "p" rootB) rootB =
      .ok [("RecItemBeta", .structDecl "RecItemBeta"
              [⟨"x", [], "x", "Option<i64>", false, [], none⟩] true none),
           ("Rec", .structDecl "Rec"
              [⟨"alpha", [], "alpha", "Option<Vec<i64>>", false, [], none⟩,
               ⟨"beta", [], "beta", "Option<RecItemBeta>", false, [], none⟩] true none)] ∧
    List.IsInfix "Item".data "RecItemBeta".data := by
  refine ⟨?_, rfl, by decide⟩
  intro f e typ it rest ft e' href hao hty hitems h
  simp only [expand_type_, href, hao, hty, hitems] at h
  cases hb : expand_type_ f {e with currentType := e.currentType ++ "Item"} it with
  | error msg => rw [hb, exbind_error] at h; exact Except.noConfusion h
  | ok p =>
    obtain ⟨fti, e''⟩ := p
    rw [hb, exbind_ok] at h
    injection h with h1
    injection h1 with hft he
    exact ⟨fti, e'', rfl, he.symm, hft.symm⟩

theorem C10_witness :
    ∃ (fti : FieldType) (e'' : Expander),
      expand_type_ 5 ⟨none, "p", Schema.empty, "Item", "", []⟩ intSchema = .ok (fti, e'') ∧
      (⟨none, "p", Schema.empty, "Item", "", []⟩ : Expander) = e'' ∧
      FieldType.ofTyp "Vec<i64>" = FieldType.ofTyp ("Vec<" ++ fti.typ ++ ">") :=
  C10_array_item_suffix.1 5 eEmpty arrIntSchema intSchema []
    (FieldType.ofTyp "Vec<i64>") ⟨none, "p", Schema.empty, "Item", "", []⟩
    rfl rfl rfl rfl rfl


end Schemafy
